import Mathlib

/-!
# Verification of the speed-test-go measurement core

Shallow embedding of the concurrent measurement engine of the
`speed-test-go` repository: the EWMA rate estimator
(`internal/transfer/rate.go`), the latency probe
(`internal/test/ping.go`), server selection
(`internal/server/selection.go`), the download/upload transfer worker
loops (`internal/transfer/download.go`, `internal/transfer/upload.go`)
and the distance sort (`internal/server/distance.go`).

Modelling conventions:
* Go `float64` values are embedded as `ℚ` (exact arithmetic); `math.Sqrt`
  appears only in theorem statements, as `Real.sqrt` over the rational
  radicand computed by the embedded code.
* Go `time.Duration` / wall-clock reads are embedded by passing the
  elapsed time between two observations explicitly as a `ℚ` argument.
* Network I/O is embedded by an explicit trace of outcomes (one entry
  per request / chunk), and concurrency nondeterminism (the order in
  which goroutines append to a mutex-protected slice) by quantifying
  over the arrival order of the collected results.
-/

namespace SpeedTest

/-! ## EWMA and RateCalculator (internal/transfer/rate.go) -/

/-- `EWMA` struct: `alpha`, `value`, `initialized` (rate.go). -/
structure EWMA where
  alpha : ℚ
  value : ℚ
  initialized : Bool
  deriving Repr, DecidableEq

/-- `NewEWMA(alpha)`: zero value with the given smoothing factor. -/
def NewEWMA (alpha : ℚ) : EWMA :=
  { alpha := alpha, value := 0, initialized := false }

/-- `EWMA.Update(newValue)`: seed on the first observation, otherwise
blend `alpha*new + (1-alpha)*old`.  Returns the updated struct (the Go
method mutates in place and returns `e.value`). -/
def EWMA.update (e : EWMA) (newValue : ℚ) : EWMA :=
  if !e.initialized then
    { e with value := newValue, initialized := true }
  else
    { e with value := e.alpha * newValue + (1 - e.alpha) * e.value }

/-- `RateCalculator` struct (rate.go).  `lastTime`/`startTime` are
wall-clock reads; the elapsed time between observations is passed
explicitly to `update`, so only the byte bookkeeping is state here. -/
structure RateCalculator where
  ewma : EWMA
  lastBytes : ℤ
  currentRate : ℚ
  deriving Repr, DecidableEq

/-- `NewRateCalculator()` / `Start()`: fresh EWMA with `alpha = 0.1`,
zeroed byte counters and rate. -/
def RateCalculator.start : RateCalculator :=
  { ewma := NewEWMA (1/10), lastBytes := 0, currentRate := 0 }

/-- `RateCalculator.Update(bytes)` with `elapsed := now - lastTime`
passed explicitly.  Mirrors rate.go exactly: return unchanged when
`elapsed == 0`; otherwise record `lastBytes = bytes` (and the new
`lastTime`), then return without touching the rate when
`deltaBytes <= 0`, else feed `deltaBytes/elapsed` to the EWMA. -/
def RateCalculator.update (rc : RateCalculator) (bytes : ℤ) (elapsed : ℚ) :
    RateCalculator :=
  if elapsed = 0 then rc
  else
    let deltaBytes : ℤ := bytes - rc.lastBytes
    let rc' := { rc with lastBytes := bytes }
    if deltaBytes ≤ 0 then rc'
    else
      let rate : ℚ := (deltaBytes : ℚ) / elapsed
      let e' := rc'.ewma.update rate
      { rc' with ewma := e', currentRate := e'.value }

/-- `RateCalculator.SetBytes(bytes)` simply delegates to `Update`. -/
def RateCalculator.setBytes (rc : RateCalculator) (bytes : ℤ) (elapsed : ℚ) :
    RateCalculator :=
  rc.update bytes elapsed

/-- `RateCalculator.Rate()`. -/
def RateCalculator.rate (rc : RateCalculator) : ℚ :=
  rc.currentRate

end SpeedTest

namespace SpeedTest

/-- A rate-calculator state is well-formed when its displayed rate agrees
with the EWMA value and the two `initialized`/`alpha` fields are the ones
`Start()` establishes; every state reachable from `start` satisfies it. -/
def RateCalculator.WF (rc : RateCalculator) : Prop :=
  rc.ewma.alpha = 1/10 ∧
  (rc.ewma.initialized = true → rc.currentRate = rc.ewma.value)

instance (rc : RateCalculator) : Decidable rc.WF := by
  unfold RateCalculator.WF
  infer_instance

theorem rateCalculator_start_wf : RateCalculator.start.WF := by
  constructor <;> simp [RateCalculator.start, NewEWMA]

theorem ewma_update_alpha (e : EWMA) (x : ℚ) : (e.update x).alpha = e.alpha := by
  unfold EWMA.update
  split <;> rfl

theorem rateCalculator_update_wf (rc : RateCalculator) (b : ℤ) (t : ℚ)
    (h : rc.WF) : (rc.update b t).WF := by
  obtain ⟨h1, h2⟩ := h
  unfold RateCalculator.update
  dsimp only
  split
  · exact ⟨h1, h2⟩
  · split
    · exact ⟨h1, h2⟩
    · exact ⟨(ewma_update_alpha _ _).trans h1, fun _ => rfl⟩

/-- First positive observation on a fresh calculator seeds the rate. -/
theorem rateCalculator_first_update (d : ℤ) (t : ℚ)
    (hd : 0 < d) (ht : 0 < t) :
    (RateCalculator.start.update d t).currentRate = (d : ℚ) / t := by
  unfold RateCalculator.update RateCalculator.start NewEWMA EWMA.update
  simp only [sub_zero]
  rw [if_neg (ne_of_gt ht), if_neg (by simpa using not_le.mpr hd)]
  simp

/-- If `lastBytes` already equals the argument, `SetBytes` leaves the whole
state unchanged: the computed delta is `0 ≤ 0` (or `elapsed = 0`). -/
theorem setBytes_const_fix (rc : RateCalculator) (c : ℤ) (t : ℚ)
    (h : rc.lastBytes = c) : rc.setBytes c t = rc := by
  subst h
  unfold RateCalculator.setBytes RateCalculator.update
  dsimp only
  split
  · rfl
  · rw [if_pos (by simp)]

theorem setBytes_const_fold (rc : RateCalculator) (c : ℤ) (ts : List ℚ)
    (h : rc.lastBytes = c) :
    ts.foldl (fun s t => s.setBytes c t) rc = rc := by
  induction ts with
  | nil => rfl
  | cons t ts ih => simpa [setBytes_const_fix rc c t h] using ih

/-- A subsequent positive observation blends with weight 1/10. -/
theorem rateCalculator_blend (rc : RateCalculator) (b : ℤ) (t : ℚ)
    (halpha : rc.ewma.alpha = 1/10)
    (hinit : rc.ewma.initialized = true)
    (hsync : rc.currentRate = rc.ewma.value)
    (hd : 0 < b - rc.lastBytes) (ht : 0 < t) :
    (rc.update b t).currentRate =
      (1/10) * (((b - rc.lastBytes : ℤ) : ℚ) / t) + (9/10) * rc.currentRate := by
  unfold RateCalculator.update EWMA.update
  rw [if_neg (ne_of_gt ht)]
  simp only [not_le.mpr hd, if_false, hinit]
  simp only [Bool.not_true, Bool.false_eq_true, if_false]
  rw [hsync, halpha]
  norm_num

/-- Concrete state after a first observation of 100 bytes over 1s. -/
theorem start_update_100_1 :
    RateCalculator.start.update 100 1 =
      { ewma := { alpha := 1/10, value := 100, initialized := true },
        lastBytes := 100, currentRate := 100 } := by
  norm_num [RateCalculator.start, RateCalculator.update, NewEWMA, EWMA.update]

/-- Concrete state after a first `SetBytes(40)` over 1s. -/
theorem start_setBytes_40_1 :
    RateCalculator.start.setBytes 40 1 =
      { ewma := { alpha := 1/10, value := 40, initialized := true },
        lastBytes := 40, currentRate := 40 } := by
  norm_num [RateCalculator.setBytes, RateCalculator.start, RateCalculator.update,
    NewEWMA, EWMA.update]

/-- C1: the first observation with positive byte delta `d` and positive
elapsed time `t` seeds the estimate to exactly `d/t` (no blending with the
zero-initialised value); every later such observation sets the estimate to
`0.1·(d/t) + 0.9·previous`; in particular observing delta 100 over 1s and
then delta 200 over 1s (cumulative bytes 100 then 300) yields rate 110,
both at the `RateCalculator` level and at the raw `EWMA` level. -/
theorem c1_rate_estimator_seed_then_blend :
    (∀ (d : ℤ) (t : ℚ), 0 < d → 0 < t →
      (RateCalculator.start.update d t).currentRate = (d : ℚ) / t) ∧
    (∀ (rc : RateCalculator) (b : ℤ) (t : ℚ),
      rc.ewma.alpha = 1/10 → rc.ewma.initialized = true →
      rc.currentRate = rc.ewma.value →
      0 < b - rc.lastBytes → 0 < t →
      (rc.update b t).currentRate =
        (1/10) * (((b - rc.lastBytes : ℤ) : ℚ) / t) + (9/10) * rc.currentRate) ∧
    ((RateCalculator.start.update 100 1).update 300 1).currentRate = 110 ∧
    (((NewEWMA (1/10)).update 100).update 200).value = 110 := by
  refine ⟨rateCalculator_first_update, rateCalculator_blend, ?_, ?_⟩
  · norm_num [RateCalculator.start, RateCalculator.update, NewEWMA, EWMA.update]
  · norm_num [NewEWMA, EWMA.update]

theorem c1_rate_estimator_seed_then_blend_witness :
    (RateCalculator.start.update 50 2).currentRate = (50 : ℚ) / 2 ∧
    ((RateCalculator.start.update 100 1).update 300 1).currentRate =
      (1/10) * (((300 - (RateCalculator.start.update 100 1).lastBytes : ℤ) : ℚ) / 1) +
        (9/10) * (RateCalculator.start.update 100 1).currentRate :=
  ⟨c1_rate_estimator_seed_then_blend.1 50 2 (by norm_num) (by norm_num),
   c1_rate_estimator_seed_then_blend.2.1 (RateCalculator.start.update 100 1) 300 1
     (by rw [start_update_100_1]) (by rw [start_update_100_1])
     (by rw [start_update_100_1]) (by norm_num [start_update_100_1])
     (by norm_num)⟩

/-- C9: an update with zero elapsed time is a complete no-op (the entire
state, hence `current()`, is unchanged for every argument `x`), and an
update whose computed byte delta is `≤ 0` leaves the rate estimate (both
`currentRate` and the EWMA state) unchanged, so no division by zero is
ever performed. -/
theorem c9_zero_elapsed_and_nonpositive_delta_noop :
    (∀ (rc : RateCalculator) (x : ℤ), rc.update x 0 = rc) ∧
    (∀ (rc : RateCalculator) (b : ℤ) (t : ℚ), t ≠ 0 → b - rc.lastBytes ≤ 0 →
      (rc.update b t).currentRate = rc.currentRate ∧
      (rc.update b t).ewma = rc.ewma) := by
  constructor
  · intro rc x
    simp [RateCalculator.update]
  · intro rc b t ht hd
    unfold RateCalculator.update
    rw [if_neg ht]
    dsimp only
    rw [if_pos hd]
    exact ⟨rfl, rfl⟩

theorem c9_zero_elapsed_and_nonpositive_delta_noop_witness :
    (RateCalculator.start.update 7 0 = RateCalculator.start) ∧
    ((RateCalculator.start.update (-3) 1).currentRate =
        RateCalculator.start.currentRate ∧
      (RateCalculator.start.update (-3) 1).ewma = RateCalculator.start.ewma) :=
  ⟨c9_zero_elapsed_and_nonpositive_delta_noop.1 RateCalculator.start 7,
   c9_zero_elapsed_and_nonpositive_delta_noop.2 RateCalculator.start (-3) 1
     (by norm_num) (by norm_num [RateCalculator.start])⟩

/-- C3: `SetBytes(b)` delegates to `Update(b)`, which treats `b` as a
cumulative total: `lastBytes` becomes `b` and, when the delta is positive,
the EWMA is fed `(b - lastBytes_prev)/elapsed`.  Consequently a sequence
of `SetBytes` calls with a constant argument `c` (as the upload workers
perform) leaves the whole state unchanged once `lastBytes = c`, and
per-chunk callers (the download worker) feed the EWMA differences of
consecutive chunk sizes: chunks 100 then 150 at 1s yield rate
`0.1·50 + 0.9·100 = 95`, not `0.1·150 + 0.9·100 = 105`. -/
theorem c3_setbytes_cumulative_semantics :
    (∀ (rc : RateCalculator) (b : ℤ) (t : ℚ), rc.setBytes b t = rc.update b t) ∧
    (∀ (rc : RateCalculator) (b : ℤ) (t : ℚ), t ≠ 0 →
      (rc.update b t).lastBytes = b ∧
      (0 < b - rc.lastBytes →
        (rc.update b t).ewma = rc.ewma.update (((b - rc.lastBytes : ℤ) : ℚ) / t))) ∧
    (∀ (rc : RateCalculator) (c : ℤ) (ts : List ℚ), rc.lastBytes = c →
      ts.foldl (fun s t => s.setBytes c t) rc = rc) ∧
    ((RateCalculator.start.setBytes 100 1).setBytes 150 1).currentRate = 95 := by
  refine ⟨fun _ _ _ => rfl, ?_, setBytes_const_fold, ?_⟩
  · intro rc b t ht
    unfold RateCalculator.update
    rw [if_neg ht]
    dsimp only
    constructor
    · split <;> rfl
    · intro hd
      rw [if_neg (not_le.mpr hd)]
  · norm_num [RateCalculator.setBytes, RateCalculator.start,
      RateCalculator.update, NewEWMA, EWMA.update]

theorem c3_setbytes_cumulative_semantics_witness :
    ((RateCalculator.start.update 100 1).lastBytes = 100 ∧
      (0 < (100 : ℤ) - RateCalculator.start.lastBytes →
        (RateCalculator.start.update 100 1).ewma =
          RateCalculator.start.ewma.update
            (((100 - RateCalculator.start.lastBytes : ℤ) : ℚ) / 1))) ∧
    ([(1 : ℚ), 1, 1].foldl
        (fun s t => s.setBytes 40 t) (RateCalculator.start.setBytes 40 1) =
      RateCalculator.start.setBytes 40 1) := by
  constructor
  · have h := c3_setbytes_cumulative_semantics.2.1 RateCalculator.start 100 1
      (by norm_num)
    exact ⟨h.1, h.2⟩
  · exact c3_setbytes_cumulative_semantics.2.2.1
      (RateCalculator.start.setBytes 40 1) 40 [(1 : ℚ), 1, 1]
      (by rw [start_setBytes_40_1])

/-! ## Latency probe (internal/test/ping.go) -/

/-- `PingTest.Run`: each of the `numPings` probes either succeeds and
records its round-trip time (`some t`) or errors / times out / returns a
non-200 status and records nothing (`none`).  The goroutines append the
successful latencies to a mutex-protected slice; the reduction applied to
them (mean and population standard deviation) is insensitive to the
append order, so the samples are collected in probe order. -/
def pingTestRun (outcomes : List (Option ℚ)) : List ℚ :=
  outcomes.filterMap id

/-- Mean of the latency samples, in seconds (`avg` in `CalculateLatency`). -/
def latAverage (l : List ℚ) : ℚ :=
  l.sum / l.length

/-- `varianceSum` in `CalculateLatency`: sum of squared deviations from
the mean. -/
def latVarSum (l : List ℚ) : ℚ :=
  (l.map (fun x => (x - latAverage l) ^ 2)).sum

/-- First component of `CalculateLatency`: the mean converted to
milliseconds (`avg * 1000`); 0 for the empty list. -/
def calculateLatencyAvgMs (l : List ℚ) : ℚ :=
  if l.length = 0 then 0 else latAverage l * 1000

/-- The radicand `varianceSum / len` inside `CalculateLatency`'s
`math.Sqrt`; the returned jitter is `Real.sqrt` of this times 1000. -/
def calculateLatencyVarOverN (l : List ℚ) : ℚ :=
  if l.length = 0 then 0 else latVarSum l / l.length

/-- `RunPingTest`: `PingTest.Run` never returns a Go error, so the only
failure is the `no successful pings` error when zero probes succeeded;
otherwise the `PingResult` is built by `CalculateLatency` from exactly
the collected samples.  We model the result by the sample list handed to
`CalculateLatency` (the numeric reduction is `calculateLatencyAvgMs` /
`Real.sqrt ∘ calculateLatencyVarOverN`). -/
def runPingTest (outcomes : List (Option ℚ)) : Option (List ℚ) :=
  let latencies := pingTestRun outcomes
  if latencies.length = 0 then none else some latencies

theorem pingTestRun_length (outcomes : List (Option ℚ)) :
    (pingTestRun outcomes).length = outcomes.countP (fun o => o.isSome) := by
  induction outcomes with
  | nil => rfl
  | cons o rest ih =>
    cases o with
    | none => simpa [pingTestRun, List.countP_cons] using ih
    | some v => simpa [pingTestRun, List.countP_cons] using ih

/-- C4: `RunPingTest` fails (with the `no successful pings` error)
exactly when zero of the requested probes succeed; when `k ≥ 1` probes
succeed the latency statistic is built from exactly those `k` samples
(`sampleCount == k`), failed probes contributing no sample; in
particular 5 requested probes with exactly 3 successes yield the 3
successful samples. -/
theorem c4_ping_fails_iff_no_successful_samples :
    (∀ outcomes : List (Option ℚ),
      (runPingTest outcomes = none ↔
        outcomes.countP (fun o => o.isSome) = 0) ∧
      (∀ samples, runPingTest outcomes = some samples →
        samples = pingTestRun outcomes ∧
        samples.length = outcomes.countP (fun o => o.isSome))) ∧
    runPingTest [some 3, none, some 5, none, some 7] = some [3, 5, 7] := by
  constructor
  · intro outcomes
    constructor
    · unfold runPingTest
      rw [← pingTestRun_length]
      dsimp only
      by_cases h : (pingTestRun outcomes).length = 0
      · simp [h]
      · simp [h]
    · intro samples hsome
      unfold runPingTest at hsome
      dsimp only at hsome
      split at hsome
      · exact absurd hsome (by simp)
      · obtain rfl : samples = pingTestRun outcomes := by
          simpa using hsome.symm
        exact ⟨rfl, pingTestRun_length outcomes⟩
  · rfl

theorem c4_ping_fails_iff_no_successful_samples_witness :
    ((runPingTest [none, some 2, none] = none ↔
        ([none, some 2, none] : List (Option ℚ)).countP (fun o => o.isSome) = 0) ∧
      ([(2 : ℚ)] = pingTestRun [none, some 2, none] ∧
        [(2 : ℚ)].length =
          ([none, some 2, none] : List (Option ℚ)).countP (fun o => o.isSome))) ∧
    (runPingTest [none, none] = none ↔
      ([none, none] : List (Option ℚ)).countP (fun o => o.isSome) = 0) :=
  ⟨⟨(c4_ping_fails_iff_no_successful_samples.1 [none, some 2, none]).1,
    (c4_ping_fails_iff_no_successful_samples.1 [none, some 2, none]).2 [2] rfl⟩,
   (c4_ping_fails_iff_no_successful_samples.1 [none, none]).1⟩

theorem latency_sum_of_all_eq (l : List ℚ) (c : ℚ) (h : ∀ x ∈ l, x = c) :
    l.sum = l.length * c := by
  induction l with
  | nil => simp
  | cons a t ih =>
    simp only [List.sum_cons, List.length_cons]
    rw [h a (by simp), ih (fun x hx => h x (by simp [hx]))]
    push_cast
    ring

/-- C8: the latency reduction returns the arithmetic mean of the samples
in milliseconds, and a jitter that is the population standard deviation
(`sqrt(varianceSum / N)`, dividing by `N`, not `N-1`) in milliseconds:
any non-empty list of identical latencies has jitter exactly 0, and a
single successful sample has jitter 0 (not an error, not `NaN`). -/
theorem c8_latency_mean_and_population_jitter :
    (∀ l : List ℚ, l ≠ [] →
      calculateLatencyAvgMs l = l.sum / l.length * 1000) ∧
    (∀ (l : List ℚ) (c : ℚ), l ≠ [] → (∀ x ∈ l, x = c) →
      calculateLatencyAvgMs l = c * 1000 ∧
      Real.sqrt (calculateLatencyVarOverN l) * 1000 = 0) ∧
    (∀ x : ℚ, Real.sqrt (calculateLatencyVarOverN [x]) * 1000 = 0) := by
  have hlen : ∀ l : List ℚ, l ≠ [] → (l.length : ℚ) ≠ 0 := by
    intro l hl
    exact_mod_cast fun h => hl (List.length_eq_zero.mp (by exact_mod_cast h))
  refine ⟨?_, ?_, ?_⟩
  · intro l hl
    rw [calculateLatencyAvgMs, if_neg (fun h => hl (List.length_eq_zero.mp h))]
    rfl
  · intro l c hl hc
    have havg : latAverage l = c := by
      rw [latAverage, latency_sum_of_all_eq l c hc,
        mul_comm, mul_div_assoc, div_self (hlen l hl), mul_one]
    have hvar : latVarSum l = 0 := by
      rw [latVarSum]
      apply List.sum_eq_zero
      intro y hy
      obtain ⟨x, hx, rfl⟩ := List.mem_map.mp hy
      rw [hc x hx, havg, sub_self]
      ring
    constructor
    · rw [calculateLatencyAvgMs, if_neg (fun h => hl (List.length_eq_zero.mp h)),
        havg]
    · rw [calculateLatencyVarOverN, if_neg (fun h => hl (List.length_eq_zero.mp h)),
        hvar, zero_div]
      simp
  · intro x
    have h : calculateLatencyVarOverN [x] = 0 := by
      simp [calculateLatencyVarOverN, latVarSum, latAverage]
    rw [h]
    simp

theorem c8_latency_mean_and_population_jitter_witness :
    (calculateLatencyAvgMs [1, 3] =
      ([(1 : ℚ), 3].sum / (([(1 : ℚ), 3] : List ℚ).length : ℚ)) * 1000) ∧
    (calculateLatencyAvgMs [5, 5] = 5 * 1000 ∧
      Real.sqrt (calculateLatencyVarOverN [5, 5]) * 1000 = 0) ∧
    Real.sqrt (calculateLatencyVarOverN [(4 : ℚ)]) * 1000 = 0 :=
  ⟨c8_latency_mean_and_population_jitter.1 [1, 3] (by simp),
   c8_latency_mean_and_population_jitter.2.1 [5, 5] 5 (by simp)
      (by intro x hx; simp at hx; exact hx),
   c8_latency_mean_and_population_jitter.2.2 4⟩

/-! ## Server selection (internal/server/selection.go, internal/test/runner.go) -/

/-- The fields of `types.Server` used by selection and the distance sort. -/
structure Server where
  id : String
  url : String
  distance : ℚ
  deriving Repr, DecidableEq

/-- `ServerLatency` struct (selection.go). -/
structure ServerLatency where
  server : Server
  latency : ℚ
  deriving Repr, DecidableEq

/-- The scan in `SelectBestServerByPing`: `best := latencies[0]`, then
replace `best` whenever a strictly lower latency is seen. -/
def findBest (best : ServerLatency) : List ServerLatency → ServerLatency
  | [] => best
  | sl :: rest => findBest (if sl.latency < best.latency then sl else best) rest

/-- The clamping of `numServers`: `<= 0` or `> len(servers)` means "probe
all". -/
def clampNumServers (numServers : ℤ) (available : ℕ) : ℕ :=
  if numServers ≤ 0 ∨ numServers > (available : ℤ) then available
  else numServers.toNat

/-- `serversToTest := servers[:numServers]` after clamping. -/
def serversToTest (servers : List Server) (numServers : ℤ) : List Server :=
  servers.take (clampNumServers numServers servers.length)

/-- `pingServers` launches one goroutine per tested server; a probe whose
`measureServerLatency` is positive appends a `ServerLatency` to a
mutex-protected slice.  The append order is the goroutine completion
order, so the collected `results` slice can be any permutation of the
successful probes (`probe s = some l` meaning the probe of `s` succeeded
with average latency `l > 0`). -/
def ValidArrival (toTest : List Server) (probe : Server → Option ℚ)
    (results : List ServerLatency) : Prop :=
  results.Perm (toTest.filterMap fun s => (probe s).map fun l => ⟨s, l⟩)

/-- `SelectBestServerByPing(servers, results)`: `(none, true)` models the
`no servers available` error, `(some servers[0], true)` the "all pings
failed, using closest server" soft error, and `(some best, false)` the
successful scan over the collected latencies (the Go loop re-visits
`latencies[0]`, hence `findBest r0 (r0 :: rest)`). -/
def selectBestServerByPing (servers : List Server)
    (results : List ServerLatency) : Option Server × Bool :=
  match servers with
  | [] => (none, true)
  | s0 :: _ =>
    match results with
    | [] => (some s0, true)
    | r0 :: rest => (some (findBest r0 (r0 :: rest)).server, false)

/-- The selection step of `Runner.Run` (runner.go): call
`SelectBestServerByPing` and, when it reports any error, fall back to
`servers[0]` and continue; the run aborts here only when `servers` is
empty (modelled as `none`). -/
def runnerSelectServer (servers : List Server)
    (results : List ServerLatency) : Option Server :=
  match selectBestServerByPing servers results with
  | (best, false) => best
  | (_, true) => servers.head?

theorem findBest_cons_self (best : ServerLatency) (l : List ServerLatency) :
    findBest best (best :: l) = findBest best l := by
  show findBest (if best.latency < best.latency then best else best) l =
    findBest best l
  rw [if_neg (lt_irrefl _)]

/-- `findBest` returns the first element of `best :: l` attaining the
minimal latency: everything strictly before it in the scan order has a
strictly larger latency, everything after it has a latency at least as
large. -/
theorem findBest_first_min (l : List ServerLatency) :
    ∀ best : ServerLatency, ∃ pre post,
      best :: l = pre ++ findBest best l :: post ∧
      (∀ x ∈ pre, (findBest best l).latency < x.latency) ∧
      (∀ x ∈ post, (findBest best l).latency ≤ x.latency) := by
  induction l with
  | nil =>
    intro best
    exact ⟨[], [], rfl, by simp, by simp⟩
  | cons sl rest ih =>
    intro best
    by_cases h : sl.latency < best.latency
    · have hstep : findBest best (sl :: rest) = findBest sl rest := by
        show findBest (if sl.latency < best.latency then sl else best) rest = _
        rw [if_pos h]
      obtain ⟨pre', post', hsplit, hpre, hpost⟩ := ih sl
      have hc_le : (findBest sl rest).latency ≤ sl.latency := by
        cases pre' with
        | nil =>
          simp only [List.nil_append] at hsplit
          injection hsplit with h1 h2
          rw [← h1]
        | cons p ps =>
          simp only [List.cons_append] at hsplit
          injection hsplit with h1 h2
          exact le_of_lt (hpre sl (by rw [h1]; exact List.mem_cons_self p ps))
      refine ⟨best :: pre', post', ?_, ?_, by simpa [hstep] using hpost⟩
      · rw [hstep, List.cons_append, ← hsplit]
      · intro x hx
        rw [hstep]
        rcases List.mem_cons.mp hx with rfl | hx'
        · exact lt_of_le_of_lt hc_le h
        · exact hpre x hx'
    · have hstep : findBest best (sl :: rest) = findBest best rest := by
        show findBest (if sl.latency < best.latency then sl else best) rest = _
        rw [if_neg h]
      have hbs : best.latency ≤ sl.latency := not_lt.mp h
      obtain ⟨pre', post', hsplit, hpre, hpost⟩ := ih best
      cases pre' with
      | nil =>
        simp only [List.nil_append] at hsplit
        injection hsplit with h1 h2
        refine ⟨[], sl :: post', ?_, by simp, ?_⟩
        · rw [hstep, List.nil_append, ← h1, h2]
        · intro x hx
          rw [hstep]
          rcases List.mem_cons.mp hx with rfl | hx'
          · rw [← h1]; exact hbs
          · exact hpost x hx'
      | cons p ps =>
        simp only [List.cons_append] at hsplit
        injection hsplit with h1 h2
        refine ⟨best :: sl :: ps, post', ?_, ?_, by simpa [hstep] using hpost⟩
        · rw [hstep]
          simp only [List.cons_append]
          rw [← h2]
        · intro x hx
          rw [hstep]
          have hcb : (findBest best rest).latency < best.latency :=
            hpre best (by rw [h1]; exact List.mem_cons_self p ps)
          rcases List.mem_cons.mp hx with rfl | hx'
          · exact hcb
          · rcases List.mem_cons.mp hx' with rfl | hx''
            · exact lt_of_lt_of_le hcb hbs
            · exact hpre x (List.mem_cons_of_mem p hx'')

/-- C5: when every latency probe fails (so the concurrently collected
results slice is empty in every arrival order), `SelectBestServerByPing`
on a non-empty candidate list returns the first (nearest) candidate
together with a soft error, and `Runner.Run`'s selection step proceeds
with that candidate instead of aborting. -/
theorem c5_all_probes_fail_fallback_to_nearest :
    ∀ (s0 : Server) (rest : List Server) (numServers : ℤ)
      (probe : Server → Option ℚ) (results : List ServerLatency),
      (∀ s, probe s = none) →
      ValidArrival (serversToTest (s0 :: rest) numServers) probe results →
      selectBestServerByPing (s0 :: rest) results = (some s0, true) ∧
      runnerSelectServer (s0 :: rest) results = some s0 := by
  intro s0 rest n probe results hfail harr
  have hres : results = [] := by
    have hfm : (serversToTest (s0 :: rest) n).filterMap
        (fun s => (probe s).map fun l => ServerLatency.mk s l) = [] := by
      simp [hfail]
    rw [ValidArrival, hfm] at harr
    exact harr.eq_nil
  subst hres
  exact ⟨rfl, rfl⟩

theorem c5_all_probes_fail_fallback_to_nearest_witness :
    selectBestServerByPing [⟨"A", "a", 1⟩, ⟨"B", "b", 2⟩] [] =
      (some ⟨"A", "a", 1⟩, true) ∧
    runnerSelectServer [⟨"A", "a", 1⟩, ⟨"B", "b", 2⟩] [] =
      some ⟨"A", "a", 1⟩ :=
  c5_all_probes_fail_fallback_to_nearest ⟨"A", "a", 1⟩ [⟨"B", "b", 2⟩] 5
    (fun _ => none) [] (fun _ => rfl) (by simp [ValidArrival])

/-- C6 counterexample: two candidates in distance order `A` (nearer)
then `B`, both probed successfully with the same latency 10.  The probe
goroutines may complete in the order `B` then `A` (a valid arrival order
for `pingServers`), and in that execution `SelectBestServerByPing`
returns `B`, not the earlier-by-distance `A`: the claimed tie-break by
original distance order does not hold. -/
theorem c6_tie_break_counterexample :
    ValidArrival
        (serversToTest [⟨"A", "a", 1⟩, ⟨"B", "b", 2⟩] 5)
        (fun _ => some 10)
        [⟨⟨"B", "b", 2⟩, 10⟩, ⟨⟨"A", "a", 1⟩, 10⟩] ∧
    (selectBestServerByPing [⟨"A", "a", 1⟩, ⟨"B", "b", 2⟩]
        [⟨⟨"B", "b", 2⟩, 10⟩, ⟨⟨"A", "a", 1⟩, 10⟩]).1 =
      some ⟨"B", "b", 2⟩ ∧
    (⟨"B", "b", 2⟩ : Server) ≠ ⟨"A", "a", 1⟩ := by
  refine ⟨?_, ?_, by simp⟩
  · have hfm : (serversToTest [⟨"A", "a", 1⟩, ⟨"B", "b", 2⟩] 5).filterMap
        (fun s => ((fun _ : Server => some (10 : ℚ)) s).map
          fun l => ServerLatency.mk s l) =
        [⟨⟨"A", "a", 1⟩, 10⟩, ⟨⟨"B", "b", 2⟩, 10⟩] := by
      simp [serversToTest, clampNumServers]
    rw [ValidArrival, hfm]
    exact List.Perm.swap _ _ _
  · show some (findBest ⟨⟨"B", "b", 2⟩, 10⟩
        [⟨⟨"B", "b", 2⟩, 10⟩, ⟨⟨"A", "a", 1⟩, 10⟩]).server = _
    rw [findBest_cons_self]
    show some (findBest (if (10 : ℚ) < 10 then _ else _) []).server = _
    rw [if_neg (lt_irrefl _)]
    rfl

/-- C6 (amended): when at least one probe succeeds,
`SelectBestServerByPing` returns the candidate whose measured average
latency is minimal among the collected results — in particular, when
only the 2nd of 3 candidates responds it is returned regardless of its
distance rank, in every arrival order — but equal minimal latencies are
resolved in favour of the earliest entry of the concurrently-assembled
results slice (goroutine completion order), not the original distance
order. -/
theorem c6_lowest_latency_wins :
    (∀ (s0 : Server) (srest : List Server) (r0 : ServerLatency)
        (rest : List ServerLatency),
      selectBestServerByPing (s0 :: srest) (r0 :: rest) =
        (some (findBest r0 (r0 :: rest)).server, false) ∧
      ∃ pre post,
        r0 :: rest = pre ++ findBest r0 (r0 :: rest) :: post ∧
        (∀ x ∈ pre, (findBest r0 (r0 :: rest)).latency < x.latency) ∧
        (∀ x ∈ post, (findBest r0 (r0 :: rest)).latency ≤ x.latency)) ∧
    (∀ results : List ServerLatency,
      ValidArrival
          (serversToTest [⟨"A", "a", 1⟩, ⟨"B", "b", 2⟩, ⟨"C", "c", 3⟩] 5)
          (fun s => if s.id = "B" then some 7 else none) results →
      selectBestServerByPing [⟨"A", "a", 1⟩, ⟨"B", "b", 2⟩, ⟨"C", "c", 3⟩]
          results =
        (some ⟨"B", "b", 2⟩, false)) := by
  constructor
  · intro s0 srest r0 rest
    refine ⟨rfl, ?_⟩
    rw [findBest_cons_self]
    exact findBest_first_min rest r0
  · intro results harr
    have hfm : (serversToTest
          [⟨"A", "a", 1⟩, ⟨"B", "b", 2⟩, ⟨"C", "c", 3⟩] 5).filterMap
        (fun s => ((fun s : Server => if s.id = "B" then some (7 : ℚ) else none) s).map
          fun l => ServerLatency.mk s l) =
        [⟨⟨"B", "b", 2⟩, 7⟩] := by
      simp [serversToTest, clampNumServers]
    rw [ValidArrival, hfm] at harr
    have hres := List.perm_singleton.mp harr
    subst hres
    show (some (findBest ⟨⟨"B", "b", 2⟩, 7⟩ [⟨⟨"B", "b", 2⟩, 7⟩]).server,
      false) = _
    rw [findBest_cons_self]
    rfl

theorem c6_lowest_latency_wins_witness :
    (selectBestServerByPing [⟨"X", "x", 1⟩] [⟨⟨"X", "x", 1⟩, 4⟩] =
        (some (findBest ⟨⟨"X", "x", 1⟩, 4⟩ [⟨⟨"X", "x", 1⟩, 4⟩]).server,
          false) ∧
      ∃ pre post,
        [(⟨⟨"X", "x", 1⟩, 4⟩ : ServerLatency)] =
          pre ++ findBest ⟨⟨"X", "x", 1⟩, 4⟩ [⟨⟨"X", "x", 1⟩, 4⟩] :: post ∧
        (∀ x ∈ pre,
          (findBest ⟨⟨"X", "x", 1⟩, 4⟩ [⟨⟨"X", "x", 1⟩, 4⟩]).latency <
            x.latency) ∧
        (∀ x ∈ post,
          (findBest ⟨⟨"X", "x", 1⟩, 4⟩ [⟨⟨"X", "x", 1⟩, 4⟩]).latency ≤
            x.latency)) ∧
    selectBestServerByPing [⟨"A", "a", 1⟩, ⟨"B", "b", 2⟩, ⟨"C", "c", 3⟩]
        [⟨⟨"B", "b", 2⟩, 7⟩] =
      (some ⟨"B", "b", 2⟩, false) :=
  ⟨c6_lowest_latency_wins.1 ⟨"X", "x", 1⟩ [] ⟨⟨"X", "x", 1⟩, 4⟩ [],
   c6_lowest_latency_wins.2 [⟨⟨"B", "b", 2⟩, 7⟩]
     (by simp [ValidArrival, serversToTest, clampNumServers])⟩

/-! ## Transfer workers (internal/transfer/download.go, upload.go) -/

/-- One chunk read from a download response body: `n` bytes (the value of
`resp.Body.Read`) and the elapsed time since the rate calculator's
previous update. -/
structure Chunk where
  n : ℤ
  elapsed : ℚ
  deriving Repr, DecidableEq

/-- One download worker iteration: request-creation / transport error, or
a response with its status code and the chunks subsequently read (the
body is only streamed when the status is 200). -/
inductive DlEvent where
  | reqErr : DlEvent
  | resp (status : ℕ) (chunks : List Chunk) : DlEvent
  deriving Repr, DecidableEq

/-- The shared state guarded by the mutex in `DownloadTest.Run`: the rate
calculator, the running byte total, and the progress snapshots sent so
far (`(rateCalc.Rate(), totalBytes)` at each positive chunk). -/
structure DlState where
  rc : RateCalculator
  totalBytes : ℤ
  snapshots : List (ℚ × ℤ)
  deriving Repr, DecidableEq

def dlInit : DlState :=
  { rc := RateCalculator.start, totalBytes := 0, snapshots := [] }

/-- Reading one chunk inside the 200 branch: when `n > 0` the worker
feeds `SetBytes(n)` to the shared calculator, adds `n` to the total and
sends a progress snapshot; chunks with `n ≤ 0` do nothing. -/
def dlChunk (st : DlState) (c : Chunk) : DlState :=
  if 0 < c.n then
    let rc' := st.rc.setBytes c.n c.elapsed
    let total' := st.totalBytes + c.n
    { rc := rc', totalBytes := total',
      snapshots := st.snapshots ++ [(rc'.rate, total')] }
  else st

/-- One worker iteration: errors and non-200 statuses leave the shared
state untouched (the failure is swallowed and the worker just continues);
a 200 response streams its chunks through `dlChunk`. -/
def dlEventStep (st : DlState) (e : DlEvent) : DlState :=
  match e with
  | .reqErr => st
  | .resp status chunks => if status = 200 then chunks.foldl dlChunk st else st

/-- How a worker loop ended: the deadline/cancellation observed at the
top of the loop, or a `break` taken after a successful operation. -/
inductive WorkerExit where
  | deadline : WorkerExit
  | success : WorkerExit
  deriving Repr, DecidableEq

/-- The download worker loop (`DownloadTest.Run`): the only exit from the
`for` is the `testCtx.Done()` check at the top; each scheduled iteration
of the trace is processed and followed by the next with no think-time.
Returns the final state, the number of iterations performed and the exit
reason. -/
def downloadWorkerLoop (st : DlState) : List DlEvent → DlState × ℕ × WorkerExit
  | [] => (st, 0, .deadline)
  | e :: rest =>
    let r := downloadWorkerLoop (dlEventStep st e) rest
    (r.1, r.2.1 + 1, r.2.2)

/-- `DownloadTest.Run` over the serialized interleaving of all worker
iterations (the mutex serializes every shared-state update); the trace
ends when `testCtx` is done.  The function always returns a `nil` error,
modelled by the `none` second component. -/
def downloadRun (events : List DlEvent) : DlState × Option String :=
  (events.foldl dlEventStep dlInit, none)

/-- `int64(rate)`: Go's float-to-int64 conversion truncates toward zero
(rates are non-negative here). -/
def int64OfRate (q : ℚ) : ℤ :=
  q.num / (q.den : ℤ)

/-- The fields of `DownloadResult` that `RunSimpleDownloadTest` fills
from the drained progress channel. -/
structure DownloadResult where
  bandwidth : ℤ
  bytes : ℤ
  deriving Repr, DecidableEq

/-- `RunSimpleDownloadTest`: waits for `Run` (which never fails), then
drains the progress channel keeping the last snapshot; the zero-valued
result stands when no snapshot was ever emitted.  `none` would model the
error return, which requires `Run` to have failed. -/
def runSimpleDownloadTest (events : List DlEvent) : Option DownloadResult :=
  match downloadRun events with
  | (_, some _) => none
  | (st, none) =>
    some (match st.snapshots.getLast? with
      | none => { bandwidth := 0, bytes := 0 }
      | some (rate, total) => { bandwidth := int64OfRate rate, bytes := total })

/-- The inner loop over `uploadURLs` in `UploadTest.Run`: each entry is
`none` for a request-creation or transport error and `some code` for a
response status; the loop breaks at the first 200 (success) and otherwise
moves on to the next URL. -/
def ulIterationSuccess : List (Option ℕ) → Bool
  | [] => false
  | none :: rest => ulIterationSuccess rest
  | some code :: rest => if code = 200 then true else ulIterationSuccess rest

/-- Shared state of `UploadTest.Run` guarded by its mutex. -/
structure UlState where
  rc : RateCalculator
  totalBytes : ℤ
  deriving Repr, DecidableEq

def ulInit : UlState :=
  { rc := RateCalculator.start, totalBytes := 0 }

/-- The 200 branch of an upload iteration: `rateCalc.SetBytes(uploadSize)`
and `totalBytes += uploadSize`. -/
def ulOnSuccess (uploadSize : ℤ) (elapsed : ℚ) (st : UlState) : UlState :=
  { rc := st.rc.setBytes uploadSize elapsed,
    totalBytes := st.totalBytes + uploadSize }

/-- The upload worker loop (`UploadTest.Run`): at the top of each
iteration the worker checks `testCtx.Done()`; it then tries the URLs in
order, and after the URL loop runs `if success { break }` — the worker
exits as soon as one iteration uploaded successfully.  Each trace entry
carries the per-URL outcomes of one iteration and the elapsed time used
by the rate update; the end of the trace is the deadline firing. -/
def uploadWorkerLoop (uploadSize : ℤ) (st : UlState) :
    List (List (Option ℕ) × ℚ) → UlState × ℕ × WorkerExit
  | [] => (st, 0, .deadline)
  | (urls, elapsed) :: rest =>
    if ulIterationSuccess urls then
      (ulOnSuccess uploadSize elapsed st, 1, .success)
    else
      let r := uploadWorkerLoop uploadSize st rest
      (r.1, r.2.1 + 1, r.2.2)

/-- C2 counterexample: an upload worker whose first iteration uploads
successfully performs exactly one operation and exits with a
success-`break` even though the deadline (end of the two-iteration
schedule) has not fired — it does not "immediately attempt another
operation". -/
theorem c2_upload_worker_exits_on_success_counterexample :
    (uploadWorkerLoop (32 * 1024 * 1024) ulInit
        [([some 200], 1), ([some 200], 1)]).2 = (1, WorkerExit.success) ∧
    ([([some 200], (1 : ℚ)), ([some 200], 1)] :
        List (List (Option ℕ) × ℚ)).length = 2 :=
  ⟨rfl, rfl⟩

/-- C2 (amended): a download worker loops until the deadline/cancellation
observed at the top of the loop, processing every scheduled iteration with
no think-time and no backoff and never exiting because an operation
succeeded; an upload worker retries failed iterations the same way until
the deadline, but `break`s out of its loop immediately after its first
successful upload. -/
theorem c2_download_loops_upload_breaks_on_success :
    (∀ (st : DlState) (trace : List DlEvent),
      downloadWorkerLoop st trace =
        (trace.foldl dlEventStep st, trace.length, WorkerExit.deadline)) ∧
    (∀ (uploadSize : ℤ) (st : UlState)
        (trace : List (List (Option ℕ) × ℚ)),
      (∀ it ∈ trace, ulIterationSuccess it.1 = false) →
      uploadWorkerLoop uploadSize st trace =
        (st, trace.length, WorkerExit.deadline)) ∧
    (∀ (uploadSize : ℤ) (st : UlState) (urls : List (Option ℕ))
        (elapsed : ℚ) (rest : List (List (Option ℕ) × ℚ)),
      ulIterationSuccess urls = true →
      uploadWorkerLoop uploadSize st ((urls, elapsed) :: rest) =
        (ulOnSuccess uploadSize elapsed st, 1, WorkerExit.success)) := by
  refine ⟨?_, ?_, ?_⟩
  · intro st trace
    induction trace generalizing st with
    | nil => rfl
    | cons e rest ih => simp [downloadWorkerLoop, ih (dlEventStep st e)]
  · intro uploadSize st trace h
    induction trace with
    | nil => rfl
    | cons it rest ih =>
      obtain ⟨urls, elapsed⟩ := it
      have hfail := h (urls, elapsed) (List.mem_cons_self _ _)
      simp only at hfail
      simp [uploadWorkerLoop, hfail,
        ih (fun it hit => h it (List.mem_cons_of_mem _ hit))]
  · intro uploadSize st urls elapsed rest h
    simp [uploadWorkerLoop, h]

theorem c2_download_loops_upload_breaks_on_success_witness :
    (downloadWorkerLoop dlInit [DlEvent.reqErr, DlEvent.resp 500 []] =
      ([DlEvent.reqErr, DlEvent.resp 500 []].foldl dlEventStep dlInit, 2,
        WorkerExit.deadline)) ∧
    (uploadWorkerLoop 5 ulInit [([none], 1), ([some 503], 1)] =
      (ulInit, 2, WorkerExit.deadline)) ∧
    (uploadWorkerLoop 5 ulInit [([some 200], 1)] =
      (ulOnSuccess 5 1 ulInit, 1, WorkerExit.success)) :=
  ⟨c2_download_loops_upload_breaks_on_success.1 dlInit
      [DlEvent.reqErr, DlEvent.resp 500 []],
   c2_download_loops_upload_breaks_on_success.2.1 5 ulInit
      [([none], 1), ([some 503], 1)]
      (by
        intro it hit
        rcases List.mem_cons.mp hit with rfl | hit'
        · rfl
        · rcases List.mem_cons.mp hit' with rfl | h
          · rfl
          · exact absurd h (List.not_mem_nil _)),
   c2_download_loops_upload_breaks_on_success.2.2 5 ulInit [some 200] 1 []
      rfl⟩

theorem foldl_resp500_id (l : List DlEvent) (st : DlState)
    (h : ∀ e ∈ l, ∃ chunks, e = DlEvent.resp 500 chunks) :
    l.foldl dlEventStep st = st := by
  induction l generalizing st with
  | nil => rfl
  | cons e rest ih =>
    obtain ⟨chunks, rfl⟩ := h e (List.mem_cons_self _ _)
    rw [List.foldl_cons]
    have hstep : dlEventStep st (DlEvent.resp 500 chunks) = st := by
      simp [dlEventStep]
    rw [hstep]
    exact ih st (fun e he => h e (List.mem_cons_of_mem _ he))

/-- C7: a download test whose every request is answered with HTTP 500
completes normally: `Run` swallows each failure (the shared state is
never touched) and returns a `nil` error, and `RunSimpleDownloadTest`
returns a valid result record with bandwidth and byte total 0 rather
than an error — and `Run` returns `nil` no matter what the trace is, so
individual request failures are never surfaced to the caller. -/
theorem c7_http500_yields_zero_result_not_error :
    (∀ events : List DlEvent, (downloadRun events).2 = none) ∧
    (∀ events : List DlEvent,
      (∀ e ∈ events, ∃ chunks, e = DlEvent.resp 500 chunks) →
      runSimpleDownloadTest events =
        some { bandwidth := 0, bytes := 0 }) := by
  constructor
  · intro events
    rfl
  · intro events h
    unfold runSimpleDownloadTest downloadRun
    rw [foldl_resp500_id events dlInit h]
    rfl

theorem c7_http500_yields_zero_result_not_error_witness :
    runSimpleDownloadTest [DlEvent.resp 500 [⟨5, 1⟩], DlEvent.resp 500 []] =
      some { bandwidth := 0, bytes := 0 } :=
  c7_http500_yields_zero_result_not_error.2
    [DlEvent.resp 500 [⟨5, 1⟩], DlEvent.resp 500 []]
    (by
      intro e he
      rcases List.mem_cons.mp he with rfl | he'
      · exact ⟨[⟨5, 1⟩], rfl⟩
      · rcases List.mem_cons.mp he' with rfl | h
        · exact ⟨[], rfl⟩
        · exact absurd h (List.not_mem_nil _))

/-! ## Distance sort (internal/server/distance.go) -/

/-- The inner loop of `SortServersByDistance` with its loop bound: with
fuel `k` it compares-and-swaps the adjacent pairs at positions
`(0,1), …, (k-1,k)` from the front of the list (Go:
`for j := 0; j < bound; j++ { if servers[j].Distance >
servers[j+1].Distance { swap } }`). -/
def bubblePass : List Server → ℕ → List Server
  | l, 0 => l
  | [], _ + 1 => []
  | [a], _ + 1 => [a]
  | a :: b :: rest, k + 1 =>
    if a.distance > b.distance then b :: bubblePass (a :: rest) k
    else a :: bubblePass (b :: rest) k

/-- The outer loop: iteration `i` of `n-1` runs the inner loop with bound
`n-i-1`, so the inner fuels go `n-1, n-2, …, 1`. -/
def bubbleIter : List Server → ℕ → List Server
  | l, 0 => l
  | l, k + 1 => bubbleIter (bubblePass l (k + 1)) k

/-- `SortServersByDistance`: bubble sort with `n-1` shrinking passes. -/
def sortServersByDistance (servers : List Server) : List Server :=
  bubbleIter servers (servers.length - 1)

theorem bubblePass_zero (l : List Server) : bubblePass l 0 = l := by
  cases l with
  | nil => rfl
  | cons a t => cases t <;> rfl

theorem bubblePass_cons₂ (a b : Server) (rest : List Server) (k : ℕ) :
    bubblePass (a :: b :: rest) (k + 1) =
      if a.distance > b.distance then b :: bubblePass (a :: rest) k
      else a :: bubblePass (b :: rest) k := rfl

theorem bubblePass_length (k : ℕ) :
    ∀ l : List Server, (bubblePass l k).length = l.length := by
  induction k with
  | zero => intro l; rw [bubblePass_zero]
  | succ k ih =>
    intro l
    match l with
    | [] => rfl
    | [a] => rfl
    | a :: b :: rest =>
      rw [bubblePass_cons₂]
      split
      · simp [ih (a :: rest)]
      · simp [ih (b :: rest)]

theorem bubblePass_perm (k : ℕ) :
    ∀ l : List Server, (bubblePass l k).Perm l := by
  induction k with
  | zero => intro l; rw [bubblePass_zero]
  | succ k ih =>
    intro l
    match l with
    | [] => exact List.Perm.refl _
    | [a] => exact List.Perm.refl _
    | a :: b :: rest =>
      rw [bubblePass_cons₂]
      split
      · exact ((ih (a :: rest)).cons b).trans (List.Perm.swap a b rest)
      · exact (ih (b :: rest)).cons a

theorem bubbleIter_perm (k : ℕ) :
    ∀ l : List Server, (bubbleIter l k).Perm l := by
  induction k with
  | zero => intro l; exact List.Perm.refl _
  | succ k ih =>
    intro l
    exact (ih (bubblePass l (k + 1))).trans (bubblePass_perm (k + 1) l)

/-- A pass whose fuel stays inside `l₁` never touches an appended tail. -/
theorem bubblePass_append (k : ℕ) :
    ∀ (l₁ l₂ : List Server), k < l₁.length →
      bubblePass (l₁ ++ l₂) k = bubblePass l₁ k ++ l₂ := by
  induction k with
  | zero => intro l₁ l₂ _; rw [bubblePass_zero, bubblePass_zero]
  | succ k ih =>
    intro l₁ l₂ hk
    match l₁ with
    | [] => exact absurd hk (by simp)
    | [a] => exact absurd hk (by simp)
    | a :: b :: rest =>
      have hk' : k < (a :: rest).length := by
        simp only [List.length_cons] at hk ⊢
        omega
      have hk'' : k < (b :: rest).length := by
        simp only [List.length_cons] at hk ⊢
        omega
      rw [show (a :: b :: rest) ++ l₂ = a :: b :: (rest ++ l₂) from rfl,
        bubblePass_cons₂, bubblePass_cons₂]
      split
      · rw [show a :: (rest ++ l₂) = (a :: rest) ++ l₂ from rfl,
          ih (a :: rest) l₂ hk']
        simp
      · rw [show b :: (rest ++ l₂) = (b :: rest) ++ l₂ from rfl,
          ih (b :: rest) l₂ hk'']
        simp

/-- A full-fuel pass bubbles a maximal element to the end of the list. -/
theorem bubblePass_max_last (k : ℕ) :
    ∀ l : List Server, l.length = k + 1 →
      ∃ init m, bubblePass l k = init ++ [m] ∧ init.length = k ∧
        ∀ x ∈ l, x.distance ≤ m.distance := by
  induction k with
  | zero =>
    intro l hl
    obtain ⟨a, rfl⟩ := List.length_eq_one.mp hl
    exact ⟨[], a, bubblePass_zero [a], rfl, by simp⟩
  | succ k ih =>
    intro l hl
    match l with
    | [] => simp at hl
    | [a] => simp at hl
    | a :: b :: rest =>
      have hrest : rest.length = k := by
        simp only [List.length_cons] at hl
        omega
      rw [bubblePass_cons₂]
      by_cases h : a.distance > b.distance
      · rw [if_pos h]
        obtain ⟨init, m, heq, hleninit, hmax⟩ :=
          ih (a :: rest) (by simp [hrest])
        refine ⟨b :: init, m, by rw [heq]; rfl, by simp [hleninit], ?_⟩
        intro x hx
        rcases List.mem_cons.mp hx with rfl | hx'
        · exact hmax x (List.mem_cons_self _ _)
        · rcases List.mem_cons.mp hx' with rfl | hx''
          · exact le_trans (le_of_lt h) (hmax a (List.mem_cons_self _ _))
          · exact hmax x (List.mem_cons_of_mem _ hx'')
      · rw [if_neg h]
        obtain ⟨init, m, heq, hleninit, hmax⟩ :=
          ih (b :: rest) (by simp [hrest])
        refine ⟨a :: init, m, by rw [heq]; rfl, by simp [hleninit], ?_⟩
        intro x hx
        rcases List.mem_cons.mp hx with rfl | hx'
        · exact le_trans (not_lt.mp h) (hmax b (List.mem_cons_self _ _))
        · exact hmax x hx'

/-- The shrinking outer iterations never move the already-bubbled last
element. -/
theorem bubbleIter_append_last (k : ℕ) :
    ∀ (x : List Server) (m : Server), k < x.length →
      bubbleIter (x ++ [m]) k = bubbleIter x k ++ [m] := by
  induction k with
  | zero => intro x m _; rfl
  | succ k ih =>
    intro x m hk
    show bubbleIter (bubblePass (x ++ [m]) (k + 1)) k =
      bubbleIter (bubblePass x (k + 1)) k ++ [m]
    rw [bubblePass_append (k + 1) x [m] hk]
    exact ih (bubblePass x (k + 1)) m
      (by rw [bubblePass_length]; omega)

/-- Stability of one pass: the sublist of servers at any fixed distance
`d` is untouched (swaps happen only across strictly different
distances). -/
theorem bubblePass_filter (k : ℕ) (d : ℚ) :
    ∀ l : List Server,
      (bubblePass l k).filter (fun s => decide (s.distance = d)) =
        l.filter (fun s => decide (s.distance = d)) := by
  induction k with
  | zero => intro l; rw [bubblePass_zero]
  | succ k ih =>
    intro l
    match l with
    | [] => rfl
    | [a] => rfl
    | a :: b :: rest =>
      rw [bubblePass_cons₂]
      by_cases h : a.distance > b.distance
      · rw [if_pos h]
        by_cases ha : a.distance = d
        · have hb : ¬b.distance = d := by
            rw [← ha]
            exact ne_of_lt h
          simp [ha, hb, ih (a :: rest)]
        · by_cases hb : b.distance = d
          · simp [ha, hb, ih (a :: rest)]
          · simp [ha, hb, ih (a :: rest)]
      · rw [if_neg h]
        simp [List.filter_cons, ih (b :: rest)]

theorem bubbleIter_filter (k : ℕ) (d : ℚ) :
    ∀ l : List Server,
      (bubbleIter l k).filter (fun s => decide (s.distance = d)) =
        l.filter (fun s => decide (s.distance = d)) := by
  induction k with
  | zero => intro l; rfl
  | succ k ih =>
    intro l
    show (bubbleIter (bubblePass l (k + 1)) k).filter _ = _
    rw [ih (bubblePass l (k + 1)), bubblePass_filter]

theorem bubbleIter_sorted :
    ∀ (n : ℕ) (l : List Server), l.length = n →
      (bubbleIter l (n - 1)).Pairwise
        (fun x y => x.distance ≤ y.distance) := by
  intro n
  induction n using Nat.strong_induction_on with
  | _ n ih =>
    match n with
    | 0 =>
      intro l hl
      rw [List.length_eq_zero.mp hl]
      exact List.Pairwise.nil
    | 1 =>
      intro l hl
      obtain ⟨a, rfl⟩ := List.length_eq_one.mp hl
      exact List.pairwise_singleton _ _
    | (k + 2) =>
      intro l hl
      show (bubbleIter l (k + 1)).Pairwise _
      have hstep : bubbleIter l (k + 1) =
          bubbleIter (bubblePass l (k + 1)) k := rfl
      obtain ⟨init, m, heq, hleninit, hmax⟩ :=
        bubblePass_max_last (k + 1) l (by omega)
      rw [hstep, heq, bubbleIter_append_last k init m (by omega)]
      have hsorted : (bubbleIter init k).Pairwise
          (fun x y => x.distance ≤ y.distance) :=
        ih (k + 1) (by omega) init hleninit
      refine List.pairwise_append.mpr ⟨hsorted, List.pairwise_singleton _ _, ?_⟩
      intro x hx y hy
      rw [List.mem_singleton] at hy
      subst hy
      have hxinit : x ∈ init := (bubbleIter_perm k init).mem_iff.mp hx
      have hxl : x ∈ l := by
        apply (bubblePass_perm (k + 1) l).mem_iff.mp
        rw [heq]
        exact List.mem_append_left _ hxinit
      exact hmax x hxl

/-- C10: `SortServersByDistance` sorts the candidate list ascending by
the `distance` field, permutes it (no candidates added or lost), and is
stable: for every distance value `d`, the subsequence of candidates at
distance `d` is exactly the one of the input, in the original order. -/
theorem c10_sort_servers_by_distance_sorted_and_stable :
    ∀ servers : List Server,
      (sortServersByDistance servers).Pairwise
        (fun x y => x.distance ≤ y.distance) ∧
      (sortServersByDistance servers).Perm servers ∧
      (∀ d : ℚ, (sortServersByDistance servers).filter
          (fun s => decide (s.distance = d)) =
        servers.filter (fun s => decide (s.distance = d))) := by
  intro servers
  exact ⟨bubbleIter_sorted servers.length servers rfl,
    bubbleIter_perm _ _, fun d => bubbleIter_filter _ d servers⟩
